import Mathlib

/-!
Shallow embedding of the command-safety gate of goobits/codesherpa
(packages/sherpa/src/parser.ts, packages/sherpa/src/rules.ts and the
PreToolUse hook), together with theorems settling the specification
claims about it.

Strings are modelled by Lean `String`, with the JavaScript string
primitives the code uses (trim, startsWith, includes, split, join)
defined by structural recursion over the character list so that every
definition is executable and every concrete instance can be settled by
`decide`.
-/

namespace CodeSherpa

/-- The whitespace characters relevant to `String.prototype.trim` for the
inputs handled here (space, tab, newline, carriage return). -/
def isJsSpace (c : Char) : Bool :=
  c == ' ' || c == '\t' || c == '\n' || c == '\r'

/-- JavaScript `String.prototype.trim`: strip whitespace from both ends. -/
def jsTrim (s : String) : String :=
  ⟨((s.data.dropWhile isJsSpace).reverse.dropWhile isJsSpace).reverse⟩

/-- JavaScript `s.startsWith(p)`. -/
def strStarts (s p : String) : Bool :=
  p.data.isPrefixOf s.data

/-- Substring occurrence on character lists: does `sub` occur inside `l`? -/
def chInfix : List Char → List Char → Bool
  | sub, [] => sub.isEmpty
  | sub, c :: t => sub.isPrefixOf (c :: t) || chInfix sub t

/-- JavaScript `s.includes(sub)`. -/
def strIncludes (s sub : String) : Bool :=
  chInfix sub.data s.data

/-- JavaScript `String.prototype.split` on a single separator character,
on character lists: `"a/b".split('/') = ["a","b"]`, `"".split('/') = [""]`,
`"/a".split('/') = ["", "a"]`. -/
def chSplit (sep : Char) : List Char → List (List Char)
  | [] => [[]]
  | c :: t =>
    let r := chSplit sep t
    if c == sep then [] :: r
    else
      match r with
      | [] => [[c]]
      | h :: t2 => (c :: h) :: t2

/-- JavaScript `s.split(sep)` for a one-character separator. -/
def strSplit (s : String) (sep : Char) : List String :=
  (chSplit sep s.data).map fun l => ⟨l⟩

/-- JavaScript `Array.prototype.join(sep)` for a one-character separator,
on character lists. -/
def chJoinSep (sep : Char) : List (List Char) → List Char
  | [] => []
  | [x] => x
  | x :: y :: t => x ++ sep :: chJoinSep sep (y :: t)

/-- JavaScript `parts.join(sep)` for a one-character separator. -/
def strJoinSep (sep : Char) (parts : List String) : String :=
  ⟨chJoinSep sep (parts.map String.data)⟩

/-- The `PathInfo` from types.ts: normalization result for one path-like string. -/
structure PathInfo where
  original : String
  normalized : String
  hasTraversal : Bool
  isAbsolute : Bool
deriving Repr, DecidableEq

/-- The segment-resolution loop of `normalizePath` (parser.ts lines 43-49):
`..` pops the last pushed segment (`Array.prototype.pop` on an empty array is
a no-op on the array), `.` and empty segments are dropped, anything else is
pushed. -/
def resolveSegs (segs : List String) : List String :=
  segs.foldl
    (fun resolved seg =>
      if seg == ".." then resolved.dropLast
      else if seg != "." && seg != "" then resolved ++ [seg]
      else resolved)
    []

/-- The `inputPath.replace(/^~/, home)` from parser.ts line 37: substitute the
home directory for a leading `~` only. -/
def jsReplaceLeadingTilde (home : String) (s : String) : String :=
  if strStarts s "~" then home ++ (⟨s.data.drop 1⟩ : String) else s

/-- The `normalizePath` from parser.ts. The home directory returned by
`os.homedir()` is an environment input and is passed explicitly as `home`. -/
def normalizePath (home : String) (inputPath : String) : PathInfo :=
  if inputPath = "" then
    ⟨inputPath, inputPath, false, false⟩
  else
    let substituted := jsReplaceLeadingTilde home inputPath
    let resolved := resolveSegs (strSplit substituted '/')
    ⟨inputPath, "/" ++ strJoinSep '/' resolved,
      strIncludes inputPath "..",
      strStarts inputPath "/" || strStarts inputPath "~"⟩

example : (normalizePath "/home/u" "/a/b/c/../../d").normalized = "/a/d" := by decide
example : (normalizePath "/home/u" "/tmp/../etc/passwd").normalized = "/etc/passwd" := by decide
example : (normalizePath "/home/u" "").normalized = "" := by decide
example : (normalizePath "/home/u" "~/x").normalized = "/home/u/x" := by decide
example : (normalizePath "/home/u" "/tmp/../etc/passwd").hasTraversal = true := by decide

/-- The `isPathWithinAllowed` from parser.ts.  The compiled-regex test of the
external JavaScript `RegExp` engine is passed explicitly as `rmatch pattern
text`; parser.ts obtains it through its own (correct) read-through cache,
which is observationally `new RegExp(pattern).test(text)`. -/
def isPathWithinAllowed (rmatch : String → String → Bool)
    (pathInfo : PathInfo) (allowedPattern : String) : Bool :=
  if pathInfo.hasTraversal then rmatch allowedPattern pathInfo.normalized
  else rmatch allowedPattern pathInfo.original

/-- Model of `RegExp.prototype.test` for the metacharacter-free patterns that
appear in the concrete instances below (such as `^/tmp/`): a leading `^`
anchors the remaining literal text at the start of the subject, any other
pattern matches as an unanchored literal substring.  On such patterns this is
exactly the JavaScript semantics. -/
def jsRegexTestLit (pattern text : String) : Bool :=
  if strStarts pattern "^" then (pattern.data.drop 1).isPrefixOf text.data
  else chInfix pattern.data text.data

/-- A TypeScript `string | string[]` union value, as used by the optional
`cmd`, `flags`, `pathPatterns`, `argPatterns` and `pipeTo` fields of a rule. -/
inductive StrOrList where
  | str (s : String)
  | list (l : List String)
deriving Repr, DecidableEq

/-- The `Array.isArray(x) ? x : [x]` — the normalization rules.ts applies to every
`string | string[]` field before use. -/
def StrOrList.toList : StrOrList → List String
  | .str s => [s]
  | .list l => l

/-- JavaScript truthiness of an optional `string | string[]` field:
`undefined` and the empty string are falsy, arrays (even empty) are truthy. -/
def solTruthy : Option StrOrList → Bool
  | none => false
  | some (.str s) => s != ""
  | some (.list _) => true

/-- The string list of an optional `string | string[]` field (after the
`Array.isArray` normalization); only consulted under `solTruthy`. -/
def solList : Option StrOrList → List String
  | none => []
  | some v => v.toList

/-- The `flagMode` values (`'all' | 'any'`). -/
inductive FlagMode where
  | all
  | any
deriving Repr, DecidableEq

/-- The `Rule` from types.ts. -/
structure Rule where
  name : String
  cmd : Option StrOrList
  subcommand : Option String
  flags : Option StrOrList
  flagMode : Option FlagMode
  pathPatterns : Option StrOrList
  argPatterns : Option StrOrList
  pipeTo : Option StrOrList
  reason : String
deriving Repr, DecidableEq

/-- The `RulesConfig` from types.ts. -/
structure RulesConfig where
  block : List Rule
  allow : List Rule
deriving Repr, DecidableEq

/-- The `CommandInfo` from types.ts. -/
structure CommandInfo where
  cmd : String
  args : List String
  flags : List String
  paths : List String
  raw : List String
  subcommand : Option String
  subArgs : Option (List String)
deriving Repr, DecidableEq

/-- The `CheckResult` from types.ts. -/
structure CheckResult where
  blocked : Bool
  rule : Option Rule
  reason : Option String
deriving Repr, DecidableEq

/-- Command-name filter shared by `matchesBlockRule` (rules.ts lines 25-28)
and `matchesAllowRule` (lines 88-91): if `rule.cmd` is truthy, the command
name must be in the (normalized) list, otherwise `return false`. -/
def cmdNameOk (cmdInfo : CommandInfo) (rule : Rule) : Bool :=
  if solTruthy rule.cmd then (solList rule.cmd).contains cmdInfo.cmd else true

/-- Subcommand filter of `matchesBlockRule` (rules.ts lines 31-33):
`if (rule.subcommand && cmdInfo.subcommand !== rule.subcommand) return false`. -/
def subcommandOk (cmdInfo : CommandInfo) (rule : Rule) : Bool :=
  match rule.subcommand with
  | none => true
  | some s => if s != "" then cmdInfo.subcommand == some s else true

/-- Flag filter of `matchesBlockRule` (rules.ts lines 36-47), with
`rule.flagMode || 'all'` as the mode. -/
def flagsOk (cmdInfo : CommandInfo) (rule : Rule) : Bool :=
  if solTruthy rule.flags then
    match rule.flagMode with
    | some FlagMode.any => (solList rule.flags).any fun f => cmdInfo.flags.contains f
    | _ => (solList rule.flags).all fun f => cmdInfo.flags.contains f
  else true

/-- Path-pattern filter of `matchesBlockRule` (rules.ts lines 50-67): the
candidates are `paths` if non-empty else `args`; an empty candidate list fails
the filter; a pattern matches if it tests true against the original or the
normalized form of some candidate. -/
def pathPatternsBlockOk (rmatch : String → String → Bool) (home : String)
    (cmdInfo : CommandInfo) (rule : Rule) : Bool :=
  if solTruthy rule.pathPatterns then
    let pathsToCheck := if cmdInfo.paths.length > 0 then cmdInfo.paths else cmdInfo.args
    if pathsToCheck.length = 0 then false
    else
      pathsToCheck.any fun p =>
        let pathInfo := normalizePath home p
        (solList rule.pathPatterns).any fun pattern =>
          rmatch pattern pathInfo.original || rmatch pattern pathInfo.normalized
  else true

/-- Arg-pattern filter of `matchesBlockRule` (rules.ts lines 70-79): patterns
are tested against the space-joined `raw` tokens. -/
def argPatternsOk (rmatch : String → String → Bool)
    (cmdInfo : CommandInfo) (rule : Rule) : Bool :=
  if solTruthy rule.argPatterns then
    (solList rule.argPatterns).any fun pattern =>
      rmatch pattern (strJoinSep ' ' cmdInfo.raw)
  else true

/-- The `matchesBlockRule` from rules.ts: the short-circuiting conjunction of its
four `return false` filter blocks.  `rmatch` stands for the compiled-regex
test the source obtains through its local `getRegex` (whose divergence on a
cache miss is modelled separately by `getRegexFuel`). -/
def matchesBlockRule (rmatch : String → String → Bool) (home : String)
    (cmdInfo : CommandInfo) (rule : Rule) : Bool :=
  cmdNameOk cmdInfo rule &&
  subcommandOk cmdInfo rule &&
  flagsOk cmdInfo rule &&
  pathPatternsBlockOk rmatch home cmdInfo rule &&
  argPatternsOk rmatch cmdInfo rule

/-- Path-pattern filter of `matchesAllowRule` (rules.ts lines 93-107): same
candidate selection and empty-candidate failure as the block filter, but each
pattern is tested through `isPathWithinAllowed`. -/
def pathPatternsAllowOk (rmatch : String → String → Bool) (home : String)
    (cmdInfo : CommandInfo) (rule : Rule) : Bool :=
  if solTruthy rule.pathPatterns then
    let pathsToCheck := if cmdInfo.paths.length > 0 then cmdInfo.paths else cmdInfo.args
    if pathsToCheck.length = 0 then false
    else
      pathsToCheck.any fun p =>
        (solList rule.pathPatterns).any fun pattern =>
          isPathWithinAllowed rmatch (normalizePath home p) pattern
  else true

/-- The `matchesAllowRule` from rules.ts (lines 87-110): command-name filter plus
the allow-style path-pattern filter. -/
def matchesAllowRule (rmatch : String → String → Bool) (home : String)
    (cmdInfo : CommandInfo) (rule : Rule) : Bool :=
  cmdNameOk cmdInfo rule && pathPatternsAllowOk rmatch home cmdInfo rule

/-- The allow loop of `checkCommand` (rules.ts lines 156-160): first allow
rule that matches. -/
def findAllowRule (rmatch : String → String → Bool) (home : String)
    (cmdInfo : CommandInfo) : List Rule → Option Rule
  | [] => none
  | rule :: rest =>
    if matchesAllowRule rmatch home cmdInfo rule then some rule
    else findAllowRule rmatch home cmdInfo rest

/-- The block loop of `checkCommand` (rules.ts lines 163-168): rules with a
truthy `pipeTo` are skipped (`continue`), and the first remaining rule for
which `matchesBlockRule` holds is returned. -/
def findBlockRule (rmatch : String → String → Bool) (home : String)
    (cmdInfo : CommandInfo) : List Rule → Option Rule
  | [] => none
  | rule :: rest =>
    if solTruthy rule.pipeTo then findBlockRule rmatch home cmdInfo rest
    else if matchesBlockRule rmatch home cmdInfo rule then some rule
    else findBlockRule rmatch home cmdInfo rest

/-- The `checkCommand` from rules.ts (lines 151-171). -/
def checkCommand (rmatch : String → String → Bool) (home : String)
    (cmdInfo : CommandInfo) (rules : RulesConfig) : CheckResult :=
  match findAllowRule rmatch home cmdInfo rules.allow with
  | some rule => ⟨false, none, some ("Allowed: " ++ rule.name)⟩
  | none =>
    match findBlockRule rmatch home cmdInfo rules.block with
    | some rule => ⟨true, some rule, none⟩
    | none => ⟨false, none, none⟩

/-- The `ASTNode` from types.ts: one interface with optional fields, used for the
bash-parser syntax tree.  Absent `commands`/`list`/`suffix` arrays are
modelled as `[]` (the source reads them as `node.commands || []` etc.);
`name?: {text}` and a `suffix` entry's `text` are modelled by the string,
with JavaScript falsiness of the empty string handled at each use site. -/
inductive ASTNode where
  | mk (type : String) (commands : List ASTNode) (left : Option ASTNode)
       (right : Option ASTNode) (list : List ASTNode)
       (name : Option String) (suffix : List String)

def ASTNode.type : ASTNode → String
  | .mk t _ _ _ _ _ _ => t

def ASTNode.commands : ASTNode → List ASTNode
  | .mk _ c _ _ _ _ _ => c

def ASTNode.left : ASTNode → Option ASTNode
  | .mk _ _ l _ _ _ _ => l

def ASTNode.right : ASTNode → Option ASTNode
  | .mk _ _ _ r _ _ _ => r

def ASTNode.list : ASTNode → List ASTNode
  | .mk _ _ _ _ l _ _ => l

def ASTNode.name : ASTNode → Option String
  | .mk _ _ _ _ _ n _ => n

def ASTNode.suffix : ASTNode → List String
  | .mk _ _ _ _ _ _ s => s

/-- The signed-number test `/^-[\d.]+$/` of parser.ts line 146: a `-`
followed by one or more characters, each a decimal digit or a dot. -/
def isSignedNumTok (t : String) : Bool :=
  match t.data with
  | '-' :: rest => rest.length > 0 && rest.all fun c => c.isDigit || c == '.'
  | _ => false

/-- The path-likeness test `/^[/~$.]/` of parser.ts line 156. -/
def startsPathLike (t : String) : Bool :=
  match t.data with
  | c :: _ => c == '/' || c == '~' || c == '$' || c == '.'
  | [] => false

/-- One iteration of the suffix loop of `parseCommand` (parser.ts lines
133-160): skip falsy text, append to `raw`, then classify as long flag
(`text.slice(2).split('=')[0]`), short-flag cluster (one flag per character
after the `-`), or positional argument (also a path candidate when it starts
with `/`, `~`, `$` or `.`). -/
def stepTok (info : CommandInfo) (text : String) : CommandInfo :=
  if text = "" then info
  else
    let info1 := { info with raw := info.raw ++ [text] }
    if strStarts text "--" then
      { info1 with
        flags := info1.flags ++ [⟨(text.data.drop 2).takeWhile fun c => c != '='⟩] }
    else if strStarts text "-" && text.length > 1 && !isSignedNumTok text then
      { info1 with flags := info1.flags ++ (text.data.drop 1).map fun c => ⟨[c]⟩ }
    else
      let info2 := { info1 with args := info1.args ++ [text] }
      if startsPathLike text then { info2 with paths := info2.paths ++ [text] }
      else info2

/-- The `parseCommand` from parser.ts (lines 119-169): `null` when the node has
no (truthy) name text; otherwise fold the suffix tokens and, for `git` with
at least one positional argument, populate `subcommand`/`subArgs`. -/
def parseCommand (node : ASTNode) : Option CommandInfo :=
  match node.name with
  | none => none
  | some cmdName =>
    if cmdName = "" then none
    else
      let info := node.suffix.foldl stepTok ⟨cmdName, [], [], [], [], none, none⟩
      if cmdName = "git" then
        match info.args with
        | [] => some info
        | a :: rest => some { info with subcommand := some a, subArgs := some rest }
      else some info

mutual

/-- The `extractCommands` from parser.ts (lines 81-114) on a non-null node: the
switch over `node.type`, recursing into `commands` for `Script`/`Pipeline`,
into `left`/`right` for `LogicalExpression` (each guarded by a truthiness
check in the source), into `list` for `Subshell`/`CompoundList`, parsing
`Command` leaves, and yielding nothing for any other kind. -/
def extractCommandsNode (node : ASTNode) : List CommandInfo :=
  match node with
  | .mk type commands left right list name suffix =>
    if type = "Script" ∨ type = "Pipeline" then
      extractCommandsList commands
    else if type = "LogicalExpression" then
      extractCommandsOpt left ++ extractCommandsOpt right
    else if type = "Command" then
      match parseCommand (.mk type commands left right list name suffix) with
      | some parsed => [parsed]
      | none => []
    else if type = "Subshell" ∨ type = "CompoundList" then
      extractCommandsList list
    else []

/-- The child loops of `extractCommands`: recurse into each child in order
and concatenate the results. -/
def extractCommandsList (nodes : List ASTNode) : List CommandInfo :=
  match nodes with
  | [] => []
  | n :: rest => extractCommandsNode n ++ extractCommandsList rest

/-- An optional child of `extractCommands` (`if (node.left) {...}`). -/
def extractCommandsOpt (node : Option ASTNode) : List CommandInfo :=
  match node with
  | none => []
  | some n => extractCommandsNode n

end

/-- The `extractCommands` including the `null` input case (`if (!node) return []`). -/
def extractCommands : Option ASTNode → List CommandInfo
  | none => []
  | some n => extractCommandsNode n

/-- The stage-name extraction of `checkPipeline` (rules.ts lines 121-123):
`(cmd.commands || []).map(c => c.name?.text).filter(Boolean)` — the bare name
text of each pipeline stage, with missing and empty names dropped. -/
def pipeNamesOf (stages : List ASTNode) : List String :=
  stages.filterMap fun c =>
    match c.name with
    | some t => if t != "" then some t else none
    | none => none

/-- The nested index loops of `checkPipeline` (rules.ts lines 132-141): some
stage whose name is in `cmds` is followed, strictly later in the same
pipeline (not necessarily adjacently), by some stage whose name is in
`pipes`. -/
def pipeRuleFiresAux (cmds pipes : List String) : List String → Bool
  | [] => false
  | n :: rest =>
    (cmds.contains n && rest.any fun m => pipes.contains m) ||
      pipeRuleFiresAux cmds pipes rest

/-- The inner rule loop of `checkPipeline` (rules.ts lines 125-142): skip
rules without a truthy `pipeTo`; for the rest, normalize `rule.cmd` and
`rule.pipeTo` with the `Array.isArray` idiom and return the first rule whose
source/target pair occurs in order in the stage names.  (When `rule.cmd` is
absent the source reads `[undefined]`, which `includes` no string stage name;
this is modelled by the empty list.) -/
def findPipeRuleIn (names : List String) : List Rule → Option Rule
  | [] => none
  | rule :: rest =>
    if !solTruthy rule.pipeTo then findPipeRuleIn names rest
    else if pipeRuleFiresAux (solList rule.cmd) (solList rule.pipeTo) names then
      some rule
    else findPipeRuleIn names rest

/-- The outer command loop of `checkPipeline` (rules.ts lines 118-143): only
direct children of the `Script` node that are `Pipeline` nodes are scanned,
in order; the first rule returned by the inner loop wins. -/
def checkPipelineCmds (blockRules : List Rule) : List ASTNode → Option Rule
  | [] => none
  | cmd :: rest =>
    if cmd.type != "Pipeline" then checkPipelineCmds blockRules rest
    else
      match findPipeRuleIn (pipeNamesOf cmd.commands) blockRules with
      | some r => some r
      | none => checkPipelineCmds blockRules rest

/-- The `checkPipeline` from rules.ts (lines 115-146): `null` unless the root is
a `Script` node, else scan its direct pipeline children. -/
def checkPipeline (ast : ASTNode) (rules : RulesConfig) : Option Rule :=
  if ast.type != "Script" then none
  else checkPipelineCmds rules.block ast.commands

/-- The `SAFE_COMMAND_PREFIXES` from the sherpa pre hook (the fast-path
allow-list). -/
def SAFE_COMMAND_PREFIXES : List String :=
  ["echo ", "echo\t", "printf ",
   "ls ", "ls\t", "ls\n", "ls",
   "pwd", "date", "whoami", "id",
   "cat ", "head ", "tail ", "wc ",
   "grep ", "awk ", "sed ",
   "cd ", "cd\t",
   "true", "false", ":"]

/-- The `isFastPathSafe` from the sherpa pre hook: the trimmed command must equal
a safe prefix trimmed or start with it, and must contain none of the compound
metacharacters `|`, `&&`, `||`, `;`, `$(`, backtick.  (The metacharacter
check does not depend on the prefix, so hoisting it into the conjunction is
the same boolean.) -/
def isFastPathSafe (command : String) : Bool :=
  let trimmed := jsTrim command
  let noMeta :=
    !(strIncludes trimmed "|") && !(strIncludes trimmed "&&") &&
    !(strIncludes trimmed "||") && !(strIncludes trimmed ";") &&
    !(strIncludes trimmed "$(") && !(strIncludes trimmed "\x60")
  SAFE_COMMAND_PREFIXES.any fun p =>
    (trimmed == jsTrim p || strStarts trimmed p) && noMeta

/-- The verdict type of the pre hook's `checkBashCommand`:
`{blocked: boolean; rule?: {name, reason}}`. -/
structure GuardVerdict where
  blocked : Bool
  rule : Option (String × String)
deriving Repr, DecidableEq

/-- The per-command loop of `checkBashCommand` (lines 84-89 of the sherpa
pre hook): the first extracted command whose `checkCommand` result is blocked
with a (truthy) rule ends the scan. -/
def findBlockedCommand (rmatch : String → String → Bool) (home : String)
    (rules : RulesConfig) : List CommandInfo → Option Rule
  | [] => none
  | c :: rest =>
    let result := checkCommand rmatch home c rules
    match result.rule with
    | some rule => if result.blocked then some rule
                   else findBlockedCommand rmatch home rules rest
    | none => findBlockedCommand rmatch home rules rest

/-- The slow path of the pre hook's `checkBashCommand` (lines 75-91): given a
successfully parsed tree, first the pipeline matcher (an immediate block),
then the per-command rule loop, else not blocked. -/
def slowPathVerdict (rmatch : String → String → Bool) (home : String)
    (ast : ASTNode) (rules : RulesConfig) : GuardVerdict :=
  match checkPipeline ast rules with
  | some rule => ⟨true, some (rule.name, rule.reason)⟩
  | none =>
    match findBlockedCommand rmatch home rules (extractCommands (some ast)) with
    | some rule => ⟨true, some (rule.name, rule.reason)⟩
    | none => ⟨false, none⟩

/-- The `checkBashCommand` from the sherpa pre hook (lines 60-92).  The external
bash parser is passed as `parse`, with `none` standing for a thrown parse
error; the `try/catch` around it is the match, and a parse failure returns
not-blocked (fail open). -/
def checkBashCommand (rmatch : String → String → Bool) (home : String)
    (parse : String → Option ASTNode) (rules : RulesConfig)
    (command : String) : GuardVerdict :=
  if isFastPathSafe command then ⟨false, none⟩
  else
    match parse command with
    | none => ⟨false, none⟩
    | some ast => slowPathVerdict rmatch home ast rules

/-- rules.ts `getRegex` (lines 11-18), with an explicit fuel bound on the
recursion depth.  The source reads

    let regex = regexCache.get(pattern);
    if (!regex) {
        regex = getRegex(pattern);
        regexCache.set(pattern, regex);
    }
    return regex;

— the recursive call in the cache-miss branch is `getRegex(pattern)` itself,
not `new RegExp(pattern)` as in the parser.ts function of the same name, and
the cache is unchanged at the point of the recursive call.  A compiled
`RegExp` is modelled by its pattern string, the module-level `Map` by an
association list, and `none` means the recursion exhausted the given fuel. -/
def getRegexFuel : Nat → List (String × String) → String →
    Option (String × List (String × String))
  | 0, _, _ => none
  | Nat.succ fuel, cache, pattern =>
    match cache.lookup pattern with
    | some regex => some (regex, cache)
    | none =>
      match getRegexFuel fuel cache pattern with
      | none => none
      | some (regex, cache1) => some (regex, (pattern, regex) :: cache1)

-- concrete rule instances used by the claim instances below
/-- The allow rule of the spec's allow-overrides-block example: `rm` under
path pattern `^/tmp/`. -/
def allowRmTmp : Rule :=
  ⟨"rm-safe", some (.str "rm"), none, none, none, some (.str "^/tmp/"),
   none, none, "removing from /tmp is ok"⟩

/-- The block rule of the spec's allow-overrides-block example: `rm` with
flags `r` and `f`. -/
def blockRmRf : Rule :=
  ⟨"rm-rf", some (.str "rm"), none, some (.list ["r", "f"]), none, none,
   none, none, "recursive force delete is dangerous"⟩

/-- The pipeline rule of the spec's example: `curl`/`wget` piped to a shell. -/
def curlBashRule : Rule :=
  ⟨"curl-bash", some (.list ["curl", "wget"]), none, none, none, none,
   none, some (.list ["bash", "sh", "zsh"]), "remote code execution"⟩

/-- A bash-parser `Command` leaf with the given name text and suffix texts. -/
def cmdNode (name : String) (suffix : List String) : ASTNode :=
  .mk "Command" [] none none [] (some name) suffix

/-- A bash-parser `Script` root whose single child is a `Pipeline` with the
given stages. -/
def scriptOfPipeline (stages : List ASTNode) : ASTNode :=
  .mk "Script" [.mk "Pipeline" stages none none [] none []] none none [] none []

/-- The claim's reading of the traversal-resolution stack, written as direct
recursion over the segment list: `..` pops the last pushed segment (a pop of
the empty stack is a no-op, so the stack never underflows past the root),
`.` and empty segments are dropped, anything else is pushed. -/
def stackRun (stack : List String) : List String → List String
  | [] => stack
  | seg :: rest =>
    if seg = ".." then stackRun stack.dropLast rest
    else if seg = "." ∨ seg = "" then stackRun stack rest
    else stackRun (stack ++ [seg]) rest

/-- A `CommandInfo` with no accumulated tokens, used to read off the
contribution of a single suffix token. -/
def blankInfo : CommandInfo :=
  ⟨"", [], [], [], [], none, none⟩

/-- The flag entries a single suffix token contributes in `parseCommand`,
independent of what was accumulated before it. -/
def tokFlags (t : String) : List String :=
  (stepTok blankInfo t).flags

/-- The positional-argument entries a single suffix token contributes in
`parseCommand`. -/
def tokArgs (t : String) : List String :=
  (stepTok blankInfo t).args

/-- The concatenated flag contributions of a token list. -/
def tokListFlags : List String → List String
  | [] => []
  | t :: rest => tokFlags t ++ tokListFlags rest

/-- The concatenated positional-argument contributions of a token list. -/
def tokListArgs : List String → List String
  | [] => []
  | t :: rest => tokArgs t ++ tokListArgs rest

/-- The `pwd` block rule of the fast-path counterexample: a rule set is free
to block a command the fast-path allow-list considers safe. -/
def blockPwdRule : Rule :=
  ⟨"no-pwd", some (.str "pwd"), none, none, none, none, none, none,
   "pwd is forbidden here"⟩

/-- The syntax tree the external bash parser produces for the bare command
`pwd`: a `Script` whose single child is a `Command` named `pwd`. -/
def astPwd : ASTNode :=
  .mk "Script" [cmdNode "pwd" []] none none [] none []

/-- A stand-in for the external bash parser that succeeds with `astPwd`. -/
def pwdParser : String → Option ASTNode :=
  fun _ => some astPwd

/-- A stand-in for the external bash parser on an input it cannot parse: the
thrown error is modelled as `none`. -/
def failParse : String → Option ASTNode :=
  fun _ => none

/-- The `CommandInfo` that `parseCommand` produces for `rm -rf /tmp/foo`. -/
def rmTmpFooCmd : CommandInfo :=
  ⟨"rm", ["/tmp/foo"], ["r", "f"], ["/tmp/foo"], ["-rf", "/tmp/foo"], none, none⟩

/-- The `CommandInfo` that `parseCommand` produces for
`rm /tmp/../etc/passwd`. -/
def rmPasswdCmd : CommandInfo :=
  ⟨"rm", ["/tmp/../etc/passwd"], [], ["/tmp/../etc/passwd"],
   ["/tmp/../etc/passwd"], none, none⟩

/-- The `CommandInfo` that `parseCommand` produces for `rm -rf` (no
positional arguments at all). -/
def pathlessRmCmd : CommandInfo :=
  ⟨"rm", [], ["r", "f"], [], ["-rf"], none, none⟩

/-!
## Theorems

One theorem per specification claim, each preceded by a doc comment naming
the claim, with witness theorems instantiating every hypothesis at concrete
inputs.
-/

/-- C1: the claim states that `getRegex` in rules.ts terminates for every
pattern, compiling and caching each pattern at most once.  The code does the
opposite: on a cache miss the function calls itself with an unchanged cache
(instead of calling `new RegExp(pattern)` as its parser.ts namesake does), so
for every pattern absent from the cache — in particular every pattern on the
first use, since the module-level cache starts empty and nothing else fills
it — the recursion never returns at any depth.  Consequently
`matchesBlockRule` does not return a verdict for rules carrying
`pathPatterns` or `argPatterns`; the claim is right about the intent (spec,
parser.ts twin, and the `matches path patterns` unit test agree) and the
code is wrong. -/
theorem getRegex_diverges_on_cache_miss (fuel : Nat)
    (cache : List (String × String)) (pattern : String)
    (h : cache.lookup pattern = none) :
    getRegexFuel fuel cache pattern = none := by
  induction fuel with
  | zero => rfl
  | succ n ih => simp [getRegexFuel, h, ih]

/-- Witness for C1: the pattern `^/tmp/` is not in the initially empty
cache, and the lookup diverges (here: exhausts a fuel of 1000, as it does
any fuel). -/
theorem getRegex_diverges_on_cache_miss_witness :
    ([] : List (String × String)).lookup "^/tmp/" = none ∧
    getRegexFuel 1000 [] "^/tmp/" = none :=
  ⟨rfl, getRegex_diverges_on_cache_miss 1000 [] "^/tmp/" rfl⟩

/-- C6: on every command text for which the external shell parser fails
(throws, modelled by `parse command = none`), `checkBashCommand` returns
`{blocked: false}` and never propagates the error, for every rule set, home
directory and regex engine. -/
theorem checkBashCommand_parse_failure_fails_open
    (rmatch : String → String → Bool) (home : String)
    (parse : String → Option ASTNode) (rules : RulesConfig) (command : String)
    (h : parse command = none) :
    checkBashCommand rmatch home parse rules command = ⟨false, none⟩ := by
  unfold checkBashCommand
  by_cases hf : isFastPathSafe command = true
  · simp [hf]
  · simp [hf, h]

/-- Witness for C6: `"this is not ( valid bash"` is rejected by the parser,
is not fast-path safe (so the parse branch really is exercised), and the
verdict is not blocked. -/
theorem checkBashCommand_parse_failure_fails_open_witness :
    failParse "this is not ( valid bash" = none ∧
    isFastPathSafe "this is not ( valid bash" = false ∧
    checkBashCommand jsRegexTestLit "/home/u" failParse ⟨[blockRmRf], [allowRmTmp]⟩
      "this is not ( valid bash" = ⟨false, none⟩ :=
  ⟨rfl, by decide,
   checkBashCommand_parse_failure_fails_open jsRegexTestLit "/home/u" failParse
     ⟨[blockRmRf], [allowRmTmp]⟩ "this is not ( valid bash" rfl⟩

/-- C9: a rule carrying a (truthy) `pathPatterns` filter never matches a
command whose candidate list is empty (`paths` empty and `args` empty), in
the block matcher and in the allow matcher alike. -/
theorem pathPatterns_require_candidates
    (rmatch : String → String → Bool) (home : String)
    (cmdInfo : CommandInfo) (rule : Rule)
    (hpp : solTruthy rule.pathPatterns = true)
    (hpaths : cmdInfo.paths = []) (hargs : cmdInfo.args = []) :
    matchesBlockRule rmatch home cmdInfo rule = false ∧
    matchesAllowRule rmatch home cmdInfo rule = false := by
  constructor
  · simp [matchesBlockRule, pathPatternsBlockOk, hpp, hpaths, hargs]
  · simp [matchesAllowRule, pathPatternsAllowOk, hpp, hpaths, hargs]

/-- Witness for C9: the `^/tmp/` path-pattern rule against `rm -rf` with no
positional arguments fails both matchers. -/
theorem pathPatterns_require_candidates_witness :
    solTruthy allowRmTmp.pathPatterns = true ∧
    pathlessRmCmd.paths = [] ∧ pathlessRmCmd.args = [] ∧
    matchesBlockRule jsRegexTestLit "/home/u" pathlessRmCmd allowRmTmp = false ∧
    matchesAllowRule jsRegexTestLit "/home/u" pathlessRmCmd allowRmTmp = false := by
  refine ⟨by decide, rfl, rfl, ?_, ?_⟩
  · exact (pathPatterns_require_candidates jsRegexTestLit "/home/u" pathlessRmCmd
      allowRmTmp (by decide) rfl rfl).1
  · exact (pathPatterns_require_candidates jsRegexTestLit "/home/u" pathlessRmCmd
      allowRmTmp (by decide) rfl rfl).2

theorem foldl_step_eq_stackRun (segs : List String) (stack : List String) :
    segs.foldl
      (fun resolved seg =>
        if seg == ".." then resolved.dropLast
        else if seg != "." && seg != "" then resolved ++ [seg]
        else resolved) stack = stackRun stack segs := by
  induction segs generalizing stack with
  | nil => rfl
  | cons seg rest ih =>
    by_cases h1 : seg = ".."
    · simpa [stackRun, h1] using ih stack.dropLast
    · by_cases h2 : seg = "."
      · simpa [stackRun, h1, h2] using ih stack
      · by_cases h3 : seg = ""
        · simpa [stackRun, h1, h2, h3] using ih stack
        · simpa [stackRun, h1, h2, h3] using ih (stack ++ [seg])

/-- C5: on every non-empty input, the normalized path is `/` plus the
`/`-joined result of running the claim's stack procedure over the segments
of the (home-substituted) input — `..` pops, with a pop of the empty stack a
no-op, `.` and empty segments dropped, everything else pushed — and in
particular `/a/b/c/../../d` normalizes to `/a/d` and over-popping clamps at
the root. -/
theorem normalizePath_resolves_with_stack (home s : String) (h : s ≠ "") :
    (normalizePath home s).normalized =
      "/" ++ strJoinSep '/' (stackRun [] (strSplit (jsReplaceLeadingTilde home s) '/')) ∧
    (normalizePath home "/a/b/c/../../d").normalized = "/a/d" ∧
    (normalizePath home "/a/../../..").normalized = "/" := by
  have key : ∀ t : String, t ≠ "" →
      (normalizePath home t).normalized =
        "/" ++ strJoinSep '/' (stackRun [] (strSplit (jsReplaceLeadingTilde home t) '/')) := by
    intro t ht
    unfold normalizePath
    rw [if_neg ht]
    simp only [resolveSegs, foldl_step_eq_stackRun]
  have hsub : ∀ t : String, strStarts t "~" = false →
      jsReplaceLeadingTilde home t = t := by
    intro t ht
    unfold jsReplaceLeadingTilde
    simp [ht]
  refine ⟨key s h, ?_, ?_⟩
  · rw [key "/a/b/c/../../d" (by decide), hsub "/a/b/c/../../d" (by decide)]
    decide
  · rw [key "/a/../../.." (by decide), hsub "/a/../../.." (by decide)]
    decide

/-- Witness for C5 at the spec's own instance. -/
theorem normalizePath_resolves_with_stack_witness :
    ("/a/b/c/../../d" : String) ≠ "" ∧
    (normalizePath "/home/u" "/a/b/c/../../d").normalized =
      "/" ++ strJoinSep '/'
        (stackRun [] (strSplit (jsReplaceLeadingTilde "/home/u" "/a/b/c/../../d") '/')) :=
  ⟨by decide, (normalizePath_resolves_with_stack "/home/u" "/a/b/c/../../d" (by decide)).1⟩

theorem normalizePath_original (home p : String) :
    (normalizePath home p).original = p := by
  unfold normalizePath
  by_cases h : p = "" <;> simp [h]

theorem normalizePath_hasTraversal (home p : String) :
    (normalizePath home p).hasTraversal = strIncludes p ".." := by
  unfold normalizePath
  by_cases h : p = ""
  · subst h
    simp [strIncludes, chInfix]
  · simp [h]

/-- C8: allow-rule containment tests the pattern against the normalized form
of a candidate path exactly when the original text contains the literal
substring `..`, and against the original text otherwise; in particular
`rm /tmp/../etc/passwd` is not cleared by the allow pattern `^/tmp/`,
because the tested form is the normalized `/etc/passwd`. -/
theorem allow_containment_uses_normalized_on_traversal
    (rmatch : String → String → Bool) (home p pattern : String) :
    isPathWithinAllowed rmatch (normalizePath home p) pattern =
      (if strIncludes p ".." then rmatch pattern (normalizePath home p).normalized
       else rmatch pattern p) ∧
    matchesAllowRule jsRegexTestLit "/home/u" rmPasswdCmd allowRmTmp = false ∧
    (normalizePath "/home/u" "/tmp/../etc/passwd").normalized = "/etc/passwd" ∧
    jsRegexTestLit "^/tmp/" "/etc/passwd" = false := by
  refine ⟨?_, by decide, by decide, by decide⟩
  unfold isPathWithinAllowed
  rw [normalizePath_original, normalizePath_hasTraversal]

theorem findAllowRule_isSome_of_mem
    (rmatch : String → String → Bool) (home : String) (cmdInfo : CommandInfo)
    (l : List Rule) (r : Rule) (hr : r ∈ l)
    (hm : matchesAllowRule rmatch home cmdInfo r = true) :
    ∃ r2, findAllowRule rmatch home cmdInfo l = some r2 := by
  induction l with
  | nil => cases hr
  | cons a rest ih =>
    by_cases ha : matchesAllowRule rmatch home cmdInfo a = true
    · exact ⟨a, by simp [findAllowRule, ha]⟩
    · rcases List.mem_cons.mp hr with rfl | hr2
      · exact absurd hm ha
      · obtain ⟨r2, h2⟩ := ih hr2
        exact ⟨r2, by simp [findAllowRule, ha, h2]⟩

/-- C3: whenever some allow rule matches a structured command, `checkCommand`
returns not-blocked, and its result is independent of the block list — no
block rule is consulted for that command (allow overrides block, scoped per
command). -/
theorem allow_overrides_block
    (rmatch : String → String → Bool) (home : String)
    (cmdInfo : CommandInfo) (rules : RulesConfig)
    (h : ∃ r ∈ rules.allow, matchesAllowRule rmatch home cmdInfo r = true) :
    (checkCommand rmatch home cmdInfo rules).blocked = false ∧
    ∀ block2 : List Rule,
      checkCommand rmatch home cmdInfo ⟨block2, rules.allow⟩ =
        checkCommand rmatch home cmdInfo rules := by
  obtain ⟨r, hr, hm⟩ := h
  obtain ⟨r2, h2⟩ := findAllowRule_isSome_of_mem rmatch home cmdInfo rules.allow r hr hm
  constructor
  · simp [checkCommand, h2]
  · intro block2
    simp [checkCommand, h2]

/-- Witness for C3 at the spec's instance: `rm -rf /tmp/foo` is cleared by
the `^/tmp/` allow rule even though the `rm` + flags `r`,`f` block rule
matches it. -/
theorem allow_overrides_block_witness :
    (∃ r ∈ ([allowRmTmp] : List Rule),
        matchesAllowRule jsRegexTestLit "/home/u" rmTmpFooCmd r = true) ∧
    parseCommand (cmdNode "rm" ["-rf", "/tmp/foo"]) = some rmTmpFooCmd ∧
    matchesBlockRule jsRegexTestLit "/home/u" rmTmpFooCmd blockRmRf = true ∧
    (checkCommand jsRegexTestLit "/home/u" rmTmpFooCmd
        ⟨[blockRmRf], [allowRmTmp]⟩).blocked = false := by
  refine ⟨⟨allowRmTmp, by simp, by decide⟩, by decide, by decide, ?_⟩
  exact (allow_overrides_block jsRegexTestLit "/home/u" rmTmpFooCmd
    ⟨[blockRmRf], [allowRmTmp]⟩ ⟨allowRmTmp, by simp, by decide⟩).1

theorem pipeRuleFiresAux_iff (cmds pipes : List String) (names : List String) :
    pipeRuleFiresAux cmds pipes names = true ↔
      ∃ l1 n l2 m l3, names = l1 ++ n :: l2 ++ m :: l3 ∧
        cmds.contains n = true ∧ pipes.contains m = true := by
  induction names with
  | nil =>
    constructor
    · intro h
      simp [pipeRuleFiresAux] at h
    · rintro ⟨l1, n, l2, m, l3, heq, -, -⟩
      cases l1 <;> simp_all
  | cons a rest ih =>
    constructor
    · intro h
      simp only [pipeRuleFiresAux, Bool.or_eq_true, Bool.and_eq_true] at h
      rcases h with ⟨hc, hany⟩ | hrec
      · rw [List.any_eq_true] at hany
        obtain ⟨m, hm, hpm⟩ := hany
        obtain ⟨l2, l3, rfl⟩ := List.append_of_mem hm
        exact ⟨[], a, l2, m, l3, rfl, hc, hpm⟩
      · obtain ⟨l1, n, l2, m, l3, heq, hc, hp⟩ := ih.mp hrec
        exact ⟨a :: l1, n, l2, m, l3, by rw [heq]; rfl, hc, hp⟩
    · rintro ⟨l1, n, l2, m, l3, heq, hc, hp⟩
      cases l1 with
      | nil =>
        simp only [List.nil_append, List.cons.injEq] at heq
        obtain ⟨rfl, rfl⟩ := heq
        simp only [pipeRuleFiresAux, Bool.or_eq_true, Bool.and_eq_true]
        left
        refine ⟨hc, ?_⟩
        rw [List.any_eq_true]
        exact ⟨m, by simp, hp⟩
      | cons b l1t =>
        simp only [List.cons_append, List.cons.injEq] at heq
        obtain ⟨rfl, heq2⟩ := heq
        simp only [pipeRuleFiresAux, Bool.or_eq_true]
        right
        exact ih.mpr ⟨l1t, n, l2, m, l3, heq2, hc, hp⟩

theorem pipeNamesOf_map_cmdNode (names : List String) (h : ∀ n ∈ names, n ≠ "") :
    pipeNamesOf (names.map fun n => cmdNode n []) = names := by
  induction names with
  | nil => rfl
  | cons a rest ih =>
    have ha : (a != "") = true := by
      have h0 := h a (by simp)
      simpa [bne_iff_ne] using h0
    have ih2 := ih fun n hn => h n (by simp [hn])
    unfold pipeNamesOf at ih2 ⊢
    rw [List.map_cons, List.filterMap_cons]
    simp only [cmdNode, ASTNode.name, ha, if_true] at ih2 ⊢
    simp at ih2 ⊢
    exact ih2

/-- C4: for a top-level pipeline and a block rule carrying `pipeTargets`
(`pipeTo`), the pipeline matcher returns the rule exactly when some stage's
command name is in the rule's source-command set and some strictly later
stage — not necessarily adjacent — is in its `pipeTo` set. -/
theorem checkPipeline_source_then_later_target
    (names : List String) (rule : Rule)
    (hp : solTruthy rule.pipeTo = true) (hne : ∀ n ∈ names, n ≠ "") :
    (checkPipeline (scriptOfPipeline (names.map fun n => cmdNode n []))
        ⟨[rule], []⟩ = some rule) ↔
      ∃ l1 n l2 m l3, names = l1 ++ n :: l2 ++ m :: l3 ∧
        (solList rule.cmd).contains n = true ∧
        (solList rule.pipeTo).contains m = true := by
  rw [← pipeRuleFiresAux_iff]
  unfold checkPipeline scriptOfPipeline
  simp only [ASTNode.type, ASTNode.commands, checkPipelineCmds, findPipeRuleIn,
    hp, pipeNamesOf_map_cmdNode names hne]
  by_cases hf : pipeRuleFiresAux (solList rule.cmd) (solList rule.pipeTo) names = true
  · simp [hf]
  · simp [hf]

/-- Witness for C4: `curl https://x | tee log.txt | bash` matches the
curl-to-bash rule exactly as `curl https://x/y | bash` does. -/
theorem checkPipeline_source_then_later_target_witness :
    solTruthy curlBashRule.pipeTo = true ∧
    checkPipeline (scriptOfPipeline ((["curl", "tee", "bash"] : List String).map
        fun n => cmdNode n [])) ⟨[curlBashRule], []⟩ = some curlBashRule ∧
    checkPipeline (scriptOfPipeline ((["curl", "bash"] : List String).map
        fun n => cmdNode n [])) ⟨[curlBashRule], []⟩ = some curlBashRule := by
  refine ⟨by decide, ?_, ?_⟩
  · exact (checkPipeline_source_then_later_target ["curl", "tee", "bash"] curlBashRule
      (by decide) (by decide)).mpr
      ⟨[], "curl", ["tee"], "bash", [], rfl, by decide, by decide⟩
  · exact (checkPipeline_source_then_later_target ["curl", "bash"] curlBashRule
      (by decide) (by decide)).mpr
      ⟨[], "curl", [], "bash", [], rfl, by decide, by decide⟩

theorem strStarts_dashdash_conditions (t : String) (h2 : strStarts t "--" = true) :
    strStarts t "-" = true ∧ t.length > 1 ∧ isSignedNumTok t = false := by
  have hd : ∃ r, t.data = '-' :: '-' :: r := by
    unfold strStarts at h2
    cases ht : t.data with
    | nil => rw [ht] at h2; simp [List.isPrefixOf] at h2
    | cons c rest =>
      cases rest with
      | nil => rw [ht] at h2; simp [List.isPrefixOf] at h2
      | cons d r =>
        rw [ht] at h2
        simp [List.isPrefixOf] at h2
        obtain ⟨hc, hd2⟩ := h2
        subst hc
        subst hd2
        exact ⟨r, rfl⟩
  obtain ⟨r, ht⟩ := hd
  refine ⟨?_, ?_, ?_⟩
  · unfold strStarts
    rw [ht]
    simp [List.isPrefixOf]
  · have hlen : t.length = t.data.length := rfl
    rw [hlen, ht]
    simp
  · unfold isSignedNumTok
    rw [ht]
    have hdig : ('-' : Char).isDigit = false := by decide
    have hdot : (('-' : Char) == '.') = false := by decide
    simp [hdig, hdot]

/-- C7: `parseCommand` contributes flag entries for a suffix token only when
the token starts with `-`, is longer than one character, and is not a bare
signed number (`/^-[\d.]+$/`); in particular `-rf /` yields flags `r`,`f`
with path-like argument `/`, while on `-10 file.txt` the flags contain
neither `1` nor `0` because `-10` stays positional. -/
theorem shortFlag_cluster_conditions :
    (∀ (info : CommandInfo) (t : String),
        ¬(strStarts t "-" = true ∧ t.length > 1 ∧ isSignedNumTok t = false) →
        (stepTok info t).flags = info.flags) ∧
    parseCommand (cmdNode "rm" ["-rf", "/"]) =
      some ⟨"rm", ["/"], ["r", "f"], ["/"], ["-rf", "/"], none, none⟩ ∧
    (parseCommand (cmdNode "head" ["-10", "file.txt"])).map CommandInfo.flags =
      some [] := by
  refine ⟨?_, by decide, by decide⟩
  intro info t hcond
  unfold stepTok
  dsimp only
  split
  · rfl
  · split
    · rename_i h2
      exact absurd (strStarts_dashdash_conditions t h2) hcond
    · split
      · rename_i hg
        simp only [Bool.and_eq_true, Bool.not_eq_true, decide_eq_true_eq,
          Bool.not_eq_true] at hg
        exact absurd ⟨hg.1.1, hg.1.2, by simpa using hg.2⟩ hcond
      · split <;> rfl

/-- Witness for C7: `-10` fails the cluster conditions and contributes no
flags. -/
theorem shortFlag_cluster_conditions_witness :
    ¬(strStarts "-10" "-" = true ∧ ("-10" : String).length > 1 ∧
        isSignedNumTok "-10" = false) ∧
    (stepTok blankInfo "-10").flags = blankInfo.flags :=
  ⟨by decide, shortFlag_cluster_conditions.1 blankInfo "-10" (by decide)⟩

theorem stepTok_flags_append (info : CommandInfo) (t : String) :
    (stepTok info t).flags = info.flags ++ tokFlags t := by
  unfold tokFlags stepTok blankInfo
  dsimp only
  split
  · simp
  · split
    · simp
    · split
      · simp
      · split <;> simp

theorem stepTok_args_append (info : CommandInfo) (t : String) :
    (stepTok info t).args = info.args ++ tokArgs t := by
  unfold tokArgs stepTok blankInfo
  dsimp only
  split
  · simp
  · split
    · simp
    · split
      · simp
      · split <;> simp

theorem foldl_stepTok_flags (l : List String) :
    ∀ info : CommandInfo, (l.foldl stepTok info).flags = info.flags ++ tokListFlags l := by
  induction l with
  | nil => intro info; simp [tokListFlags]
  | cons t rest ih =>
    intro info
    rw [List.foldl_cons, ih, stepTok_flags_append]
    simp [tokListFlags]

theorem foldl_stepTok_args (l : List String) :
    ∀ info : CommandInfo, (l.foldl stepTok info).args = info.args ++ tokListArgs l := by
  induction l with
  | nil => intro info; simp [tokListArgs]
  | cons t rest ih =>
    intro info
    rw [List.foldl_cons, ih, stepTok_args_append]
    simp [tokListArgs]

theorem tokListFlags_append (a b : List String) :
    tokListFlags (a ++ b) = tokListFlags a ++ tokListFlags b := by
  induction a with
  | nil => rfl
  | cons t rest ih => simp [tokListFlags, ih]

theorem tokListArgs_append (a b : List String) :
    tokListArgs (a ++ b) = tokListArgs a ++ tokListArgs b := by
  induction a with
  | nil => rfl
  | cons t rest ih => simp [tokListArgs, ih]

/-- C10: `parseCommand` implements no end-of-options semantics: the token
`--` is itself classified as a long flag with empty name (the empty string
is appended to `flags`), and because the suffix loop carries no
mode — each token's contribution is a function of that token alone — tokens
after `--` still contribute the flags and positional arguments their own
shape dictates, exactly as they would without the `--`. -/
theorem no_end_of_options_handling (info : CommandInfo) (pre post : List String) :
    tokFlags "--" = [""] ∧
    ((pre ++ "--" :: post).foldl stepTok info).flags =
      (pre.foldl stepTok info).flags ++ [""] ++ tokListFlags post ∧
    ((pre ++ "--" :: post).foldl stepTok info).args =
      (pre.foldl stepTok info).args ++ tokListArgs post ∧
    (parseCommand (cmdNode "rm" ["--", "-rf"])).map CommandInfo.flags =
      some ["", "r", "f"] := by
  have hf : tokFlags "--" = [""] := by decide
  have ha : tokArgs "--" = [] := by decide
  refine ⟨hf, ?_, ?_, by decide⟩
  · rw [foldl_stepTok_flags, foldl_stepTok_flags, tokListFlags_append]
    simp [tokListFlags, hf]
  · rw [foldl_stepTok_args, foldl_stepTok_args, tokListArgs_append]
    simp [tokListArgs, ha]

/-- Counterexample for C2: the fast path is not a subset of the slow path's
allow set for every rule set.  `pwd` is fast-path safe, so the hook answers
not-blocked without parsing; but under a rule set whose block list contains a
plain `pwd` rule, the slow path — pipeline match plus per-command rule
match on the parse tree of `pwd` — blocks.  The fast path therefore changes
the verdict for this rule set. -/
theorem fastPath_not_subset_for_all_rulesets :
    isFastPathSafe "pwd" = true ∧
    checkBashCommand jsRegexTestLit "/home/u" pwdParser ⟨[blockPwdRule], []⟩ "pwd" =
      ⟨false, none⟩ ∧
    slowPathVerdict jsRegexTestLit "/home/u" astPwd ⟨[blockPwdRule], []⟩ =
      ⟨true, some ("no-pwd", "pwd is forbidden here")⟩ := by
  exact ⟨by decide, by decide, by decide⟩

theorem checkPipelineCmds_nil_rules (l : List ASTNode) :
    checkPipelineCmds [] l = none := by
  induction l with
  | nil => rfl
  | cons c rest ih =>
    unfold checkPipelineCmds
    by_cases h : (c.type != "Pipeline") = true
    · simp [h, ih]
    · simp [h, findPipeRuleIn, ih]

theorem checkCommand_no_block_rules (rmatch : String → String → Bool)
    (home : String) (cmdInfo : CommandInfo) (allow : List Rule) :
    (checkCommand rmatch home cmdInfo ⟨[], allow⟩).blocked = false ∧
    (checkCommand rmatch home cmdInfo ⟨[], allow⟩).rule = none := by
  unfold checkCommand
  cases h : findAllowRule rmatch home cmdInfo allow <;> simp [h, findBlockRule]

theorem findBlockedCommand_no_block_rules (rmatch : String → String → Bool)
    (home : String) (allow : List Rule) (cmds : List CommandInfo) :
    findBlockedCommand rmatch home ⟨[], allow⟩ cmds = none := by
  induction cmds with
  | nil => rfl
  | cons c rest ih =>
    unfold findBlockedCommand
    have h := checkCommand_no_block_rules rmatch home c allow
    simp [h.2, ih]

/-- C2 amended: the fast path cannot be a subset of the slow path's allow
set for *every* rule set (a block rule may target a fast-path-safe command,
see the counterexample); what holds is that the fast path never changes the
verdict for rule sets whose block list is empty: the slow path then returns
not-blocked on every parse tree, which is also what the fast path
short-circuits to. -/
theorem fastPath_sound_for_blockless_rulesets
    (rmatch : String → String → Bool) (home : String)
    (parse : String → Option ASTNode) (rules : RulesConfig)
    (C : String) (ast : ASTNode)
    (hb : rules.block = []) (hfp : isFastPathSafe C = true) :
    checkBashCommand rmatch home parse rules C = ⟨false, none⟩ ∧
    slowPathVerdict rmatch home ast rules = ⟨false, none⟩ := by
  obtain ⟨bl, al⟩ := rules
  simp only [RulesConfig.block] at hb
  subst hb
  constructor
  · simp [checkBashCommand, hfp]
  · have hcp : checkPipeline ast ⟨[], al⟩ = none := by
      unfold checkPipeline
      by_cases h : (ast.type != "Script") = true
      · simp [h]
      · simp [h, checkPipelineCmds_nil_rules]
    simp [slowPathVerdict, hcp, findBlockedCommand_no_block_rules]

/-- Witness for C2's amended theorem: with an empty block list (and a
non-trivial allow list), the fast-path verdict and the slow-path verdict on
`pwd` agree on not-blocked. -/
theorem fastPath_sound_for_blockless_rulesets_witness :
    (⟨[], [allowRmTmp]⟩ : RulesConfig).block = [] ∧
    isFastPathSafe "pwd" = true ∧
    checkBashCommand jsRegexTestLit "/home/u" pwdParser ⟨[], [allowRmTmp]⟩ "pwd" =
      ⟨false, none⟩ ∧
    slowPathVerdict jsRegexTestLit "/home/u" astPwd ⟨[], [allowRmTmp]⟩ =
      ⟨false, none⟩ := by
  refine ⟨rfl, by decide, ?_, ?_⟩
  · exact (fastPath_sound_for_blockless_rulesets jsRegexTestLit "/home/u" pwdParser
      ⟨[], [allowRmTmp]⟩ "pwd" astPwd rfl (by decide)).1
  · exact (fastPath_sound_for_blockless_rulesets jsRegexTestLit "/home/u" pwdParser
      ⟨[], [allowRmTmp]⟩ "pwd" astPwd rfl (by decide)).2

end CodeSherpa
